import Mathlib

/-!
Verification of the positional range extraction engine of the `cut`-style tool
(`src/08_cut/src/lib.rs` and `src/08_cut/src/ranges.rs`).

Modelling conventions of this shallow embedding:
* Rust `&str` values that are treated as character sequences are `List Char`;
  values treated as byte sequences are `List Nat` (each entry a byte);
  produced display strings are `List Nat` of Unicode scalar values.
* `usize` is modelled as `Nat` together with the 64-bit bound `USIZE = 2 ^ 64`
  exactly where the Rust code performs a checked operation
  (`str::parse`, `checked_add`, `checked_sub`).
* Fallible Rust functions return `Except`; the `.expect(..)` panic path of
  `extract_fields` is modelled by an outer `Option` whose `none` is the panic.
* Lazy iterators are materialised: `ranges_iter` below is the finite list of
  all indices the Rust `RangeIter` yields, driven by the faithful one-step
  function `RangeIter.next` with a fuel bound that is proved sufficient.
-/

/-- Width bound of `usize` on the 64-bit reference platform. -/
def USIZE : Nat := 2 ^ 64

/-! ## Text primitives used by the parsers (Rust `str` operations) -/

/-- Rust `str::split(sep)` on a single separator char: `""` splits to `[""]`,
a trailing separator yields a trailing empty piece. -/
def splitChar (sep : Char) : List Char → List (List Char)
  | [] => [[]]
  | c :: rest =>
    if c = sep then [] :: splitChar sep rest
    else
      match splitChar sep rest with
      | [] => [[c]]
      | t :: ts => (c :: t) :: ts

/-- Unicode `White_Space` scalar values, the set trimmed by Rust `str::trim`
and `char::is_whitespace`. -/
def isRustWsCp (n : Nat) : Bool :=
  n = 9 || n = 10 || n = 11 || n = 12 || n = 13 || n = 32 || n = 0x85 || n = 0xA0 ||
  n = 0x1680 || (0x2000 ≤ n && n ≤ 0x200A) || n = 0x2028 || n = 0x2029 ||
  n = 0x202F || n = 0x205F || n = 0x3000

/-- Rust `char::is_whitespace`. -/
def isRustWs (c : Char) : Bool := isRustWsCp c.toNat

/-- Rust `str::trim` on a character list. -/
def rustTrim (s : List Char) : List Char :=
  ((s.dropWhile isRustWs).reverse.dropWhile isRustWs).reverse

/-- Rust `str::trim` at the level of scalar-value lists (used on the string
rebuilt by the field serializer). -/
def rustTrimCp (s : List Nat) : List Nat :=
  ((s.dropWhile isRustWsCp).reverse.dropWhile isRustWsCp).reverse

/-- ASCII digit test, as used by Rust `char::to_digit(10)` inside
`from_str_radix`. -/
def isDigitCh (c : Char) : Bool := 48 ≤ c.toNat && c.toNat ≤ 57

/-! ## `str::parse::<NonZeroUsize>` -/

/-- Error kinds of Rust `str::parse::<NonZeroUsize>` reachable for this code:
`empty` is "cannot parse integer from empty string", `invalidDigit` is
"invalid digit found in string", `posOverflow` is "number too large to fit in
target type", `zero` is "number would be zero for non-zero type". -/
inductive IntParseError where
  | empty
  | invalidDigit
  | posOverflow
  | zero
deriving DecidableEq, Repr

/-- Digit-accumulation loop of `from_str_radix` (radix 10, unsigned): each
character is checked to be a digit, then the accumulator update is checked
against the `usize` width, exactly in source order. -/
def parseUsizeGo (acc : Nat) : List Char → Except IntParseError Nat
  | [] => .ok acc
  | c :: rest =>
    if isDigitCh c then
      if acc * 10 + (c.toNat - 48) < USIZE then parseUsizeGo (acc * 10 + (c.toNat - 48)) rest
      else .error .posOverflow
    else .error .invalidDigit

/-- Rust `str::parse::<NonZeroUsize>`: an optional leading `'+'` is stripped
("+"` alone is an invalid digit, `""` is the empty error), the digits are
accumulated with overflow checking, and the non-zero conversion rejects 0. -/
def parseNonZeroUsize (s : List Char) : Except IntParseError Nat :=
  match s with
  | [] => .error .empty
  | c :: rest =>
    let digits := if c = '+' then rest else s
    if c = '+' && rest.isEmpty then .error .invalidDigit
    else
      match parseUsizeGo 0 digits with
      | .error e => .error e
      | .ok n => if n = 0 then .error .zero else .ok n

/-! ## Range token and range list parsing (`parse_range`, `parse_ranges`) -/

/-- Structured form of the `anyhow` error messages of `parse_range`:
`invalidPart token e` is "Invalid range '{token}' - {e}", and
`malformed token n` is "Invalid range '{token}' - wrong number of range
parts {n}". -/
inductive RangeError where
  | invalidPart (token : List Char) (e : IntParseError)
  | malformed (token : List Char) (count : Nat)
deriving DecidableEq, Repr

/-- Rust `Iterator::collect::<Result<Vec<_>, _>>`: the first error
short-circuits, otherwise all payloads are collected in order. -/
def collectExcept {ε α : Type} : List (Except ε α) → Except ε (List α)
  | [] => .ok []
  | .error e :: _ => .error e
  | .ok a :: rest =>
    match collectExcept rest with
    | .error e => .error e
    | .ok l => .ok (a :: l)

/-- `parse_range` from `src/08_cut/src/lib.rs`: split the token on `'-'`,
parse every part as `NonZeroUsize` (first failure wins), then build the
zero-based inclusive pair from one part or two parts; any other part count is
the malformed-range error. -/
def parse_range (range : List Char) : Except RangeError (Nat × Nat) :=
  match collectExcept ((splitChar '-' range).map parseNonZeroUsize) with
  | .error e => .error (.invalidPart range e)
  | .ok parts =>
    match parts with
    | [p] => .ok (p - 1, p - 1)
    | [p, q] => .ok (p - 1, q - 1)
    | _ => .error (.malformed range parts.length)

/-- `parse_ranges` from `src/08_cut/src/lib.rs`: split the specification on
`','`, trim each piece, delegate to `parse_range`, and collect with the first
error short-circuiting. -/
def parse_ranges (ranges : List Char) : Except RangeError (List (Nat × Nat)) :=
  collectExcept ((splitChar ',' ranges).map (fun x => parse_range (rustTrim x)))

/-! ## The range index iterator (`src/08_cut/src/ranges.rs`) -/

/-- Cursor state of `RangeIter`: `ext` indexes into the range list, `int` is
the optional cursor inside the current range. -/
structure RangeIndex where
  ext : Nat
  int : Option Nat
deriving DecidableEq, Repr

/-- The iterator: the borrowed range list plus the cursor pair. -/
structure RangeIter where
  ranges : List (Nat × Nat)
  index : RangeIndex
deriving DecidableEq, Repr

/-- `usize::checked_add(1)`. -/
def checkedAdd (n : Nat) : Option Nat := if n + 1 < USIZE then some (n + 1) else none

/-- `usize::checked_sub(1)`. -/
def checkedSub (n : Nat) : Option Nat := if n = 0 then none else some (n - 1)

/-- `RangeIter::new`. -/
def RangeIter.new (ranges : List (Nat × Nat)) : RangeIter :=
  ⟨ranges, ⟨0, none⟩⟩

/-- One step of `RangeIter::next`. In the source the `None` branch stores
`Some(*range.start())` into `int` and calls `next` recursively exactly once;
that single recursive call is unrolled here (`value` starts at the range's
start), which is behaviourally identical and keeps the definition
structurally computable. -/
def RangeIter.next (it : RangeIter) : Option (Nat × RangeIter) :=
  match it.ranges[it.index.ext]? with
  | none => none
  | some range =>
    let value := match it.index.int with
                 | none => range.1
                 | some v => v
    let nx := if range.1 ≤ range.2 then checkedAdd value else checkedSub value
    if value = range.2 ∨ nx = none then
      some (value, ⟨it.ranges, ⟨it.index.ext + 1, none⟩⟩)
    else
      some (value, ⟨it.ranges, ⟨it.index.ext, nx⟩⟩)

/-- Driver that pulls at most `fuel` items out of the iterator. -/
def runIter (fuel : Nat) (it : RangeIter) : List Nat :=
  match fuel with
  | 0 => []
  | fuel + 1 =>
    match it.next with
    | none => []
    | some (v, it2) => v :: runIter fuel it2

/-- Number of indices a single inclusive range denotes (`|a - b| + 1`). -/
def segLen (r : Nat × Nat) : Nat := if r.1 ≤ r.2 then r.2 - r.1 + 1 else r.1 - r.2 + 1

/-- Total number of indices a range list denotes. -/
def totalLen (ranges : List (Nat × Nat)) : Nat := (ranges.map segLen).sum

/-- The complete (always finite) output sequence of `ranges_iter(ranges)`:
the iterator run to exhaustion. `totalLen ranges` pulls are proved to
exhaust it. -/
def ranges_iter (ranges : List (Nat × Nat)) : List Nat :=
  runIter (totalLen ranges) (RangeIter.new ranges)

/-- Closed form of one range's segment: ascending `a, a+1, ..., b` when
`a ≤ b`, descending `a, a-1, ..., b` otherwise. -/
def rangeSeq (r : Nat × Nat) : List Nat :=
  if r.1 ≤ r.2 then List.range' r.1 (r.2 - r.1 + 1)
  else (List.range' r.2 (r.1 - r.2 + 1)).reverse

/-! ## UTF-8 (Rust `String::from_utf8_lossy` and UTF-8 validation) -/

/-- Continuation byte test `0x80..=0xBF`. -/
def isCont (c : Nat) : Bool := 0x80 ≤ c && c ≤ 0xBF

/-- Allowed second byte after a three-byte leader, per the UTF-8 DFA used by
Rust's validator (excludes overlong forms and surrogates). -/
def cont3ok (b c : Nat) : Bool :=
  (b = 0xE0 && 0xA0 ≤ c && c ≤ 0xBF) || (0xE1 ≤ b && b ≤ 0xEC && isCont c) ||
  (b = 0xED && 0x80 ≤ c && c ≤ 0x9F) || (0xEE ≤ b && b ≤ 0xEF && isCont c)

/-- Allowed second byte after a four-byte leader (excludes overlong forms and
values beyond U+10FFFF). -/
def cont4ok (b c : Nat) : Bool :=
  (b = 0xF0 && 0x90 ≤ c && c ≤ 0xBF) || (0xF1 ≤ b && b ≤ 0xF3 && isCont c) ||
  (b = 0xF4 && 0x80 ≤ c && c ≤ 0x8F)

/-- Scalar value of a two-byte sequence. -/
def cp2 (b c1 : Nat) : Nat := (b - 0xC0) * 0x40 + (c1 - 0x80)

/-- Scalar value of a three-byte sequence. -/
def cp3 (b c1 c2 : Nat) : Nat := (b - 0xE0) * 0x1000 + (c1 - 0x80) * 0x40 + (c2 - 0x80)

/-- Scalar value of a four-byte sequence. -/
def cp4 (b c1 c2 c3 : Nat) : Nat :=
  (b - 0xF0) * 0x40000 + (c1 - 0x80) * 0x1000 + (c2 - 0x80) * 0x40 + (c3 - 0x80)

/-- Prepend a decoded scalar, keeping the validity flag of the tail. -/
def utf8Ok (cp : Nat) (p : List Nat × Bool) : List Nat × Bool := (cp :: p.1, p.2)

/-- Record an invalid maximal subpart: emit U+FFFD and mark the whole input
invalid. -/
def utf8Bad (p : List Nat × Bool) : List Nat × Bool := (0xFFFD :: p.1, false)

/-- Combined lossy decoder and validator for UTF-8, following the maximal
subpart substitution policy of Rust `String::from_utf8_lossy` (one U+FFFD per
invalid prefix, resuming at the first unconsumed byte) together with the
validity verdict of `std::str::from_utf8`. One unit of fuel is spent per
decoded unit, so `fuel = length` always suffices (each step consumes at least
one byte). -/
def utf8LossyGo : Nat → List Nat → List Nat × Bool
  | _, [] => ([], true)
  | 0, _ :: _ => ([], true)
  | fuel + 1, b :: rest =>
    if b < 0x80 then utf8Ok b (utf8LossyGo fuel rest)
    else if 0xC2 ≤ b && b ≤ 0xDF then
      match rest with
      | [] => ([0xFFFD], false)
      | c1 :: rest1 =>
        if isCont c1 then utf8Ok (cp2 b c1) (utf8LossyGo fuel rest1)
        else utf8Bad (utf8LossyGo fuel rest)
    else if 0xE0 ≤ b && b ≤ 0xEF then
      match rest with
      | [] => ([0xFFFD], false)
      | c1 :: rest1 =>
        if cont3ok b c1 then
          match rest1 with
          | [] => ([0xFFFD], false)
          | c2 :: rest2 =>
            if isCont c2 then utf8Ok (cp3 b c1 c2) (utf8LossyGo fuel rest2)
            else utf8Bad (utf8LossyGo fuel rest1)
        else utf8Bad (utf8LossyGo fuel rest)
    else if 0xF0 ≤ b && b ≤ 0xF4 then
      match rest with
      | [] => ([0xFFFD], false)
      | c1 :: rest1 =>
        if cont4ok b c1 then
          match rest1 with
          | [] => ([0xFFFD], false)
          | c2 :: rest2 =>
            if isCont c2 then
              match rest2 with
              | [] => ([0xFFFD], false)
              | c3 :: rest3 =>
                if isCont c3 then utf8Ok (cp4 b c1 c2 c3) (utf8LossyGo fuel rest3)
                else utf8Bad (utf8LossyGo fuel rest2)
            else utf8Bad (utf8LossyGo fuel rest1)
        else utf8Bad (utf8LossyGo fuel rest)
    else utf8Bad (utf8LossyGo fuel rest)

/-- Rust `String::from_utf8_lossy` as a scalar-value list. -/
def utf8DecodeLossy (bs : List Nat) : List Nat := (utf8LossyGo bs.length bs).1

/-- Rust `std::str::from_utf8(..).is_ok()` / `String::from_utf8` success. -/
def isValidUtf8 (bs : List Nat) : Bool := (utf8LossyGo bs.length bs).2

/-! ## The three extractors -/

/-- Byte buffer collected by `extract_bytes` before decoding:
`ranges_iter(ranges).filter_map(|i| line.as_bytes().get(i).copied())`. -/
def collectedBytes (xs : List Nat) (ranges : List (Nat × Nat)) : List Nat :=
  (ranges_iter ranges).filterMap (fun i => xs[i]?)

/-- `extract_bytes`: collect the in-bounds bytes in traversal order, then
decode the buffer lossily. `line` is the line's byte sequence. -/
def extract_bytes (xs : List Nat) (ranges : List (Nat × Nat)) : List Nat :=
  utf8DecodeLossy (collectedBytes xs ranges)

/-- `extract_chars`: `ranges_iter(ranges).filter_map(|i| line.chars().nth(i))`.
`line` is the line's scalar-value sequence. -/
def extract_chars (xs : List Nat) (ranges : List (Nat × Nat)) : List Nat :=
  (ranges_iter ranges).filterMap (fun i => xs[i]?)

/-- `extract_fields_internal`: select the in-bounds fields of the parsed
record in traversal order. -/
def extract_fields_internal (record : List (List Nat)) (ranges : List (Nat × Nat)) :
    List (List Nat) :=
  (ranges_iter ranges).filterMap (fun i => record[i]?)

/-! ## The csv field splitter and serializer (crate `csv`, default quoting,
quote byte `"` = 34, record terminator bytes LF = 10 and CR = 13) -/

/-- Read an unquoted field: stops at the delimiter byte (returning the rest of
the input) or at a record terminator or end of input (returning `none`).
Quote bytes inside an unquoted field are literal data. -/
def readUnquoted (d : Nat) : List Nat → List Nat × Option (List Nat)
  | [] => ([], none)
  | b :: rest =>
    if b = d then ([], some rest)
    else if b = 10 || b = 13 then ([], none)
    else
      let r := readUnquoted d rest
      (b :: r.1, r.2)

/-- Read the interior of a quoted field (the opening quote is already
consumed): a doubled quote is an escaped literal quote; after the closing
quote a delimiter ends the field, a terminator or end of input ends the
record, and any other byte leniently continues the field unquoted (csv-core's
permissive behaviour). An unterminated quote ends the field at end of input. -/
def readQuoted (d : Nat) : List Nat → List Nat × Option (List Nat)
  | [] => ([], none)
  | 34 :: rest =>
    match rest with
    | [] => ([], none)
    | c :: rest2 =>
      if c = 34 then
        let r := readQuoted d rest2
        (34 :: r.1, r.2)
      else if c = d then ([], some rest2)
      else if c = 10 || c = 13 then ([], none)
      else readUnquoted d rest
  | b :: rest =>
    let r := readQuoted d rest
    (b :: r.1, r.2)

/-- Read one field: a field starting with a quote byte is quoted. -/
def readField (d : Nat) (bytes : List Nat) : List Nat × Option (List Nat) :=
  match bytes with
  | 34 :: rest => readQuoted d rest
  | _ => readUnquoted d bytes

/-- Read all fields of one record. Each recursive step consumed at least the
delimiter byte, so `fuel = length + 1` always suffices. -/
def readFieldsGo (d : Nat) : Nat → List Nat → List (List Nat)
  | 0, _ => []
  | fuel + 1, bytes =>
    match readField d bytes with
    | (f, none) => [f]
    | (f, some rest) => f :: readFieldsGo d fuel rest

/-- First record produced by the csv reader over the line's bytes: leading
record terminators are skipped, and empty input yields no record at all
(`Reader::records().next()` returns `None`), which is what makes the
`.expect("No fields found")` in `extract_fields` reachable. -/
def readRecord (d : Nat) (xs : List Nat) : Option (List (List Nat)) :=
  let line2 := xs.dropWhile (fun b => b = 10 || b = 13)
  if line2.isEmpty then none
  else some (readFieldsGo d (line2.length + 1) line2)

/-- Double every quote byte (writer-side escaping). -/
def escapeQuotes : List Nat → List Nat
  | [] => []
  | b :: rest => if b = 34 then 34 :: 34 :: escapeQuotes rest else b :: escapeQuotes rest

/-- `QuoteStyle::Necessary` of the csv writer: a field is quoted when it
contains the quote byte, the delimiter byte, or a record terminator byte, or
when it is the single empty field of a record. -/
def fieldNeedsQuotes (d : Nat) (single : Bool) (f : List Nat) : Bool :=
  (single && f.isEmpty) || f.contains 34 || f.contains d || f.contains 10 || f.contains 13

/-- Serialize one field, quoting it if necessary. -/
def encodeField (d : Nat) (single : Bool) (f : List Nat) : List Nat :=
  if fieldNeedsQuotes d single f then 34 :: (escapeQuotes f ++ [34]) else f

/-- Join serialized fields with the delimiter byte. -/
def joinWithDelim (d : Nat) : List (List Nat) → List Nat
  | [] => []
  | [f] => f
  | f :: rest => f ++ d :: joinWithDelim d rest

/-- csv writer `write_record` into a byte buffer: delimiter-joined encoded
fields plus the `\n` record terminator the writer appends. -/
def csvWriteRecord (d : Nat) (fields : List (List Nat)) : List Nat :=
  joinWithDelim d (fields.map (encodeField d (fields.length == 1))) ++ [10]

/-- `extract_fields` from `src/08_cut/src/lib.rs`. The outer `Option` models
the `.expect("No fields found")` panic (`none`) reached when the csv reader
yields no record; `Except Unit` models the `anyhow::Result` (`error` covers
the reader's UTF-8 validation failure and `String::from_utf8` failure). The
delimiter enters reader and writer as `delimeter as u8`, i.e. the code point
reduced modulo 256. The final string is trimmed with `str::trim` (the source
comment says this removes the serializer's trailing newline). -/
def extract_fields (xs : List Nat) (delimeter : Nat) (ranges : List (Nat × Nat)) :
    Option (Except Unit (List Nat)) :=
  let d := delimeter % 256
  match readRecord d xs with
  | none => none
  | some record =>
    if record.all (fun f => isValidUtf8 f) then
      let out := csvWriteRecord d (extract_fields_internal record ranges)
      if isValidUtf8 out then some (.ok (rustTrimCp (utf8DecodeLossy out))) else some (.error ())
    else some (.error ())

/-- Token shape accepted by the grammar `NUMBER := '+'? DIGIT+` with value
`N`: an optional leading plus followed by a nonempty run of ASCII digits. -/
def NumToken (s : List Char) (n : Nat) : Prop :=
  ∃ d, (s = d ∨ s = '+' :: d) ∧ d ≠ [] ∧ (∀ c ∈ d, isDigitCh c) ∧
    d.foldl (fun a c => a * 10 + (c.toNat - 48)) 0 = n

/-- Decidable equality for `Except` results, used to evaluate concrete runs. -/
instance exceptDecEq {ε α : Type} [DecidableEq ε] [DecidableEq α] : DecidableEq (Except ε α) :=
  fun a b =>
    match a, b with
    | .ok x, .ok y =>
      if h : x = y then isTrue (by rw [h]) else isFalse (by intro c; injection c; contradiction)
    | .error x, .error y =>
      if h : x = y then isTrue (by rw [h]) else isFalse (by intro c; injection c; contradiction)
    | .ok _, .error _ => isFalse (by intro c; injection c)
    | .error _, .ok _ => isFalse (by intro c; injection c)

/-! ## Helper lemmas about `collectExcept` (the `Result`-collecting iterator) -/

/-- A successful collect means every element was `ok`, in order. -/
theorem collectExcept_ok_map {ε α : Type} :
    ∀ {es : List (Except ε α)} {l : List α}, collectExcept es = .ok l → es = l.map Except.ok := by
  intro es
  induction es with
  | nil =>
    intro l h
    simp only [collectExcept] at h
    injection h with h
    subst h
    rfl
  | cons x rest ih =>
    intro l h
    cases x with
    | error e => simp [collectExcept] at h
    | ok a =>
      simp only [collectExcept] at h
      cases hr : collectExcept rest with
      | error e => rw [hr] at h; cases h
      | ok l2 =>
        rw [hr] at h
        injection h with h
        subst h
        simp [ih hr]

/-- If every element is `ok`, collect succeeds with the same length. -/
theorem collectExcept_all_ok {ε α : Type} :
    ∀ (es : List (Except ε α)), (∀ x ∈ es, ∃ a, x = .ok a) →
      ∃ l, collectExcept es = .ok l ∧ l.length = es.length := by
  intro es
  induction es with
  | nil => intro _; exact ⟨[], rfl, rfl⟩
  | cons x rest ih =>
    intro h
    obtain ⟨a, ha⟩ := h x (by simp)
    subst ha
    obtain ⟨l, hl, hlen⟩ := ih (fun y hy => h y (by simp [hy]))
    exact ⟨a :: l, by simp [collectExcept, hl], by simp [hlen]⟩

/-- The first error in the list short-circuits the collect. -/
theorem collectExcept_first_error :
    ∀ (j : Nat) {ε α : Type} (es : List (Except ε α)) (e : ε),
      es[j]? = some (.error e) → (∀ i, i < j → ∃ a, es[i]? = some (.ok a)) →
      collectExcept es = .error e := by
  intro j
  induction j with
  | zero =>
    intro ε α es e hj _
    cases es with
    | nil => simp at hj
    | cons x rest =>
      simp at hj
      subst hj
      rfl
  | succ n ih =>
    intro ε α es e hj hok
    cases es with
    | nil => simp at hj
    | cons x rest =>
      obtain ⟨a, ha⟩ := hok 0 (Nat.succ_pos n)
      simp at ha
      subst ha
      have hj2 : rest[n]? = some (.error e) := by simpa using hj
      have hok2 : ∀ i, i < n → ∃ a, rest[i]? = some (.ok a) := by
        intro i hi
        have := hok (i + 1) (by omega)
        simpa using this
      simp [collectExcept, ih rest e hj2 hok2]

/-! ## Helper lemmas about `splitChar` -/

/-- A piece with no separator is returned whole. -/
theorem splitChar_no_sep (sep : Char) :
    ∀ (s : List Char), (∀ c ∈ s, c ≠ sep) → splitChar sep s = [s] := by
  intro s
  induction s with
  | nil => intro _; rfl
  | cons c rest ih =>
    intro h
    have hc : c ≠ sep := h c (by simp)
    have hr := ih (fun x hx => h x (by simp [hx]))
    simp [splitChar, hc, hr]

/-- Splitting a separator-free piece glued before `sep :: s2` peels that piece. -/
theorem splitChar_append (sep : Char) :
    ∀ (s1 s2 : List Char), (∀ c ∈ s1, c ≠ sep) →
      splitChar sep (s1 ++ sep :: s2) = s1 :: splitChar sep s2 := by
  intro s1 s2
  induction s1 with
  | nil => intro _; simp [splitChar]
  | cons c rest ih =>
    intro h
    have hc : c ≠ sep := h c (by simp)
    have hr := ih (fun x hx => h x (by simp [hx]))
    simp [splitChar, hc, hr]

/-! ## Helper lemmas about digit parsing -/

/-- The decimal accumulator never decreases. -/
theorem digitsFold_mono :
    ∀ (s : List Char) (acc : Nat),
      acc ≤ s.foldl (fun a c => a * 10 + (c.toNat - 48)) acc := by
  intro s
  induction s with
  | nil => intro acc; simp
  | cons c rest ih =>
    intro acc
    calc acc ≤ acc * 10 + (c.toNat - 48) := by omega
    _ ≤ _ := by simpa using ih (acc * 10 + (c.toNat - 48))

/-- On an all-digit string whose value fits `usize`, the accumulation loop
returns the decimal value. -/
theorem parseUsizeGo_ok :
    ∀ (s : List Char) (acc : Nat), (∀ c ∈ s, isDigitCh c) →
      s.foldl (fun a c => a * 10 + (c.toNat - 48)) acc < USIZE →
      parseUsizeGo acc s = .ok (s.foldl (fun a c => a * 10 + (c.toNat - 48)) acc) := by
  intro s
  induction s with
  | nil => intro acc _ _; rfl
  | cons c rest ih =>
    intro acc hd hv
    have hc : isDigitCh c := hd c (by simp)
    have hbound : acc * 10 + (c.toNat - 48) < USIZE := by
      have := digitsFold_mono rest (acc * 10 + (c.toNat - 48))
      simp only [List.foldl_cons] at hv
      omega
    simp only [parseUsizeGo, hc, if_true, hbound, List.foldl_cons]
    exact ih _ (fun x hx => hd x (by simp [hx])) (by simpa using hv)

/-- A digit is not `'+'` and not `'-'`. -/
theorem isDigitCh_ne (c : Char) (h : isDigitCh c) : c ≠ '+' ∧ c ≠ '-' := by
  constructor <;> intro hc <;> subst hc <;> simp [isDigitCh] at h

/-- `str::parse::<NonZeroUsize>` succeeds on a nonempty all-digit token with a
nonzero value below the `usize` width, with or without a leading plus. -/
theorem parseNonZeroUsize_ok :
    ∀ (d : List Char), d ≠ [] → (∀ c ∈ d, isDigitCh c) →
      1 ≤ d.foldl (fun a c => a * 10 + (c.toNat - 48)) 0 →
      d.foldl (fun a c => a * 10 + (c.toNat - 48)) 0 < USIZE →
      parseNonZeroUsize d = .ok (d.foldl (fun a c => a * 10 + (c.toNat - 48)) 0) ∧
      parseNonZeroUsize ('+' :: d) = .ok (d.foldl (fun a c => a * 10 + (c.toNat - 48)) 0) := by
  intro d hne hd h1 h2
  have hgo := parseUsizeGo_ok d 0 hd h2
  constructor
  · cases d with
    | nil => exact absurd rfl hne
    | cons c rest =>
      have hcp : c ≠ '+' := (isDigitCh_ne c (hd c (by simp))).1
      simp only [parseNonZeroUsize, hcp, if_false, Bool.false_and, hgo]
      simp only [List.foldl_cons, Nat.zero_mul, Nat.zero_add] at h1 ⊢
      have hz : rest.foldl (fun a c => a * 10 + (c.toNat - 48)) (c.toNat - 48) ≠ 0 := by
        omega
      simp [hgo, hz]
  · have hie : d.isEmpty = false := by
      cases d with
      | nil => exact absurd rfl hne
      | cons c rest => rfl
    simp only [parseNonZeroUsize, if_pos rfl, hie]
    have : d.foldl (fun a c => a * 10 + (c.toNat - 48)) 0 ≠ 0 := by omega
    simp [hgo, this]

/-! ## Helper lemmas about the range index iterator -/

/-- Past the end of the range list the iterator yields nothing. -/
theorem runIter_oob (ranges : List (Nat × Nat)) (ext : Nat) (int : Option Nat) (fuel : Nat)
    (h : ranges.length ≤ ext) : runIter fuel ⟨ranges, ⟨ext, int⟩⟩ = [] := by
  cases fuel with
  | zero => rfl
  | succ n =>
    have hn : ranges[ext]? = none := List.getElem?_eq_none h
    simp [runIter, RangeIter.next, hn]

/-- Entering a range initialises the internal cursor at the range's start. -/
theorem runIter_init (ranges : List (Nat × Nat)) (ext a b : Nat) (fuel : Nat)
    (h : ranges[ext]? = some (a, b)) :
    runIter fuel ⟨ranges, ⟨ext, none⟩⟩ = runIter fuel ⟨ranges, ⟨ext, some a⟩⟩ := by
  cases fuel with
  | zero => rfl
  | succ n => simp [runIter, RangeIter.next, h]

/-- One driver step. -/
theorem runIter_succ (n : Nat) (it : RangeIter) :
    runIter (n + 1) it =
      match it.next with
      | none => []
      | some (v, it2) => v :: runIter n it2 := rfl

/-- Ascending traversal of one range: from cursor `v` with `v + k = b` the
iterator emits `v, v+1, ..., b` and then stands at the next range. -/
theorem runIter_asc (ranges : List (Nat × Nat)) (ext a b : Nat)
    (h : ranges[ext]? = some (a, b)) (hab : a ≤ b) (hb : b < USIZE) :
    ∀ (k v fuel : Nat), v + k = b →
      runIter (k + fuel + 1) ⟨ranges, ⟨ext, some v⟩⟩ =
        List.range' v (k + 1) ++ runIter fuel ⟨ranges, ⟨ext + 1, none⟩⟩ := by
  intro k
  induction k with
  | zero =>
    intro v fuel hv
    have hvb : v = b := by omega
    subst hvb
    simp [runIter, RangeIter.next, h, List.range'_one]
  | succ n ih =>
    intro v fuel hv
    have hvb : ¬(v = b) := by omega
    have hnx : checkedAdd v = some (v + 1) := by
      have hlt : v + 1 < USIZE := by omega
      simp [checkedAdd, hlt]
    have harith : n + 1 + fuel + 1 = n + fuel + 1 + 1 := by omega
    rw [harith]
    have hcond : ¬(v = b ∨ (some (v + 1) : Option Nat) = none) := by simp [hvb]
    have hnext : RangeIter.next ⟨ranges, ⟨ext, some v⟩⟩ =
        some (v, ⟨ranges, ⟨ext, some (v + 1)⟩⟩) := by
      simp only [RangeIter.next, h, if_pos hab, hnx, if_neg hcond]
    rw [runIter_succ, hnext]
    show v :: runIter (n + fuel + 1) ⟨ranges, ⟨ext, some (v + 1)⟩⟩ = _
    rw [ih (v + 1) fuel (by omega)]
    rw [List.range'_succ]
    rfl

/-- Descending traversal of one range: from cursor `v` with `b + k = v` the
iterator emits `v, v-1, ..., b` and then stands at the next range. -/
theorem runIter_desc (ranges : List (Nat × Nat)) (ext a b : Nat)
    (h : ranges[ext]? = some (a, b)) (hab : ¬(a ≤ b)) :
    ∀ (k v fuel : Nat), b + k = v →
      runIter (k + fuel + 1) ⟨ranges, ⟨ext, some v⟩⟩ =
        (List.range' b (k + 1)).reverse ++ runIter fuel ⟨ranges, ⟨ext + 1, none⟩⟩ := by
  intro k
  induction k with
  | zero =>
    intro v fuel hv
    have hvb : v = b := by omega
    subst hvb
    simp [runIter, RangeIter.next, h, List.range'_one]
  | succ n ih =>
    intro v fuel hv
    have hvb : ¬(v = b) := by omega
    have hnx : checkedSub v = some (v - 1) := by
      have hpos : ¬(v = 0) := by omega
      simp [checkedSub, hpos]
    have harith : n + 1 + fuel + 1 = n + fuel + 1 + 1 := by omega
    rw [harith]
    have hcond : ¬(v = b ∨ (some (v - 1) : Option Nat) = none) := by simp [hvb]
    have hnext : RangeIter.next ⟨ranges, ⟨ext, some v⟩⟩ =
        some (v, ⟨ranges, ⟨ext, some (v - 1)⟩⟩) := by
      simp only [RangeIter.next, h, if_neg hab, hnx, if_neg hcond]
    rw [runIter_succ, hnext]
    show v :: runIter (n + fuel + 1) ⟨ranges, ⟨ext, some (v - 1)⟩⟩ = _
    rw [ih (v - 1) fuel (by omega)]
    have hconc : List.range' b (n + 1 + 1) = List.range' b (n + 1) ++ [b + (n + 1)] := by
      simp [List.range'_concat]
    rw [hconc, List.reverse_append]
    simp only [List.reverse_cons, List.reverse_nil, List.nil_append, List.singleton_append]
    have hbv : b + (n + 1) = v := by omega
    rw [hbv]
    rfl

/-- Running the iterator from range `ext` with the segment-sum fuel yields the
concatenation of the remaining segments. -/
theorem runIter_drop (ranges : List (Nat × Nat))
    (hw : ∀ p ∈ ranges, p.1 < USIZE ∧ p.2 < USIZE) :
    ∀ (n ext fuel : Nat), ranges.length - ext = n →
      runIter (totalLen (ranges.drop ext) + fuel) ⟨ranges, ⟨ext, none⟩⟩ =
        (ranges.drop ext).flatMap rangeSeq := by
  intro n
  induction n with
  | zero =>
    intro ext fuel hn
    have hle : ranges.length ≤ ext := by omega
    rw [List.drop_eq_nil_of_le hle]
    simpa using runIter_oob ranges ext none _ hle
  | succ n ih =>
    intro ext fuel hn
    have hlt : ext < ranges.length := by omega
    have hdrop : ranges.drop ext = ranges[ext] :: ranges.drop (ext + 1) :=
      List.drop_eq_getElem_cons hlt
    rcases hr : ranges[ext] with ⟨a, b⟩
    have hsome : ranges[ext]? = some (a, b) := by
      rw [List.getElem?_eq_getElem hlt, hr]
    have hmem : (a, b) ∈ ranges := by
      rw [← hr]
      exact List.getElem_mem hlt
    obtain ⟨ha1, hb1⟩ := hw (a, b) hmem
    rw [hdrop, hr]
    rw [runIter_init ranges ext a b _ hsome]
    by_cases hab : a ≤ b
    · have htot : totalLen ((a, b) :: ranges.drop (ext + 1)) + fuel =
          (b - a) + (totalLen (ranges.drop (ext + 1)) + fuel) + 1 := by
        simp only [totalLen, List.map_cons, List.sum_cons, segLen, if_pos hab]
        omega
      rw [htot, runIter_asc ranges ext a b hsome hab hb1 (b - a) a _ (by omega)]
      rw [ih (ext + 1) fuel (by omega)]
      have hseq : rangeSeq (a, b) = List.range' a (b - a + 1) := by
        simp [rangeSeq, hab]
      simp [List.flatMap_cons, hseq]
    · have htot : totalLen ((a, b) :: ranges.drop (ext + 1)) + fuel =
          (a - b) + (totalLen (ranges.drop (ext + 1)) + fuel) + 1 := by
        simp only [totalLen, List.map_cons, List.sum_cons, segLen, if_neg hab]
        omega
      rw [htot, runIter_desc ranges ext a b hsome hab (a - b) a _ (by omega)]
      rw [ih (ext + 1) fuel (by omega)]
      have hseq : rangeSeq (a, b) = (List.range' b (a - b + 1)).reverse := by
        simp [rangeSeq, hab]
      simp [List.flatMap_cons, hseq]

/-- The materialised iterator output is the segment concatenation, for any
range list of representable (`usize`) endpoints. -/
theorem ranges_iter_eq_flatMap (ranges : List (Nat × Nat))
    (hw : ∀ p ∈ ranges, p.1 < USIZE ∧ p.2 < USIZE) :
    ranges_iter ranges = ranges.flatMap rangeSeq := by
  have h := runIter_drop ranges hw ranges.length 0 0 (by omega)
  simpa [ranges_iter, RangeIter.new, totalLen] using h

/-- `range'` with step 1 is strictly increasing. -/
theorem chain_lt_range' : ∀ (n s : Nat), List.Chain' (· < ·) (List.range' s n) := by
  intro n
  induction n with
  | zero => intro s; simp
  | succ m ih =>
    intro s
    rw [List.range'_succ]
    match m, ih with
    | 0, _ => simp
    | k + 1, ih =>
      rw [List.range'_succ]
      exact List.Chain'.cons (by omega) (by rw [← List.range'_succ]; exact ih (s + 1))

/-! ## Helper lemmas about index lookup and UTF-8 -/

/-- `filter_map` over index lookups keeps exactly the in-bounds positions, in
traversal order, each replaced by the element it addresses. -/
theorem filterMap_lookup_eq {α : Type} (xs : List α) (d : α) :
    ∀ (l : List Nat), l.filterMap (fun i => xs[i]?) =
      (l.filter (fun i => i < xs.length)).map (fun i => xs.getD i d) := by
  intro l
  induction l with
  | nil => rfl
  | cons i rest ih =>
    by_cases hi : i < xs.length
    · have h1 : xs[i]? = some (xs.getD i d) := by
        rw [List.getD_eq_getElem?_getD, List.getElem?_eq_getElem hi]
        rfl
      simp only [List.filterMap_cons, List.filter_cons, h1]
      rw [if_pos (by simpa using hi)]
      rw [List.map_cons, ih]
    · have h1 : xs[i]? = none := List.getElem?_eq_none (by omega)
      simp only [List.filterMap_cons, List.filter_cons, h1]
      rw [if_neg (by simpa using hi)]
      exact ih

/-- When the validator rejects a byte sequence, the lossy decoder emitted at
least one replacement character for it. -/
theorem utf8Go_invalid_mem :
    ∀ (fuel : Nat) (bs : List Nat), bs.length ≤ fuel → (utf8LossyGo fuel bs).2 = false →
      (0xFFFD : Nat) ∈ (utf8LossyGo fuel bs).1 := by
  intro fuel
  induction fuel with
  | zero =>
    intro bs hlen hf
    have hbs : bs = [] := List.eq_nil_of_length_eq_zero (Nat.le_zero.mp hlen)
    subst hbs
    simp [utf8LossyGo] at hf
  | succ n ih =>
    intro bs hlen hf
    match bs with
    | [] => simp [utf8LossyGo] at hf
    | b :: rest =>
      revert hf
      simp only [utf8LossyGo]
      repeat' split
      all_goals intro hf
      all_goals
        first
        | simp
        | (simp only [utf8Bad]; exact List.mem_cons_self _ _)
        | (simp only [utf8Ok] at hf ⊢
           refine List.mem_cons_of_mem _ (ih _ ?_ hf)
           simp only [List.length_cons] at hlen
           omega)

/-! ## Claim theorems -/

/-- C1: for every range list (of `usize`-representable endpoints) and every
range `(a, b)` in it, the Range Index Iterator's output is the in-order
concatenation of one segment per range; the segment of `(a, b)` is exactly
`[a]` when `a = b`, has exactly `|a - b| + 1` indices, is strictly monotonic
in the direction implied by `a` versus `b`, and for `a > b` is exactly
`a, a-1, ..., b` (the reversed ascending block: no repeats, no skipped
values), after which the iterator moves to the next range in list order. -/
theorem ranges_iter_segments (ranges : List (Nat × Nat))
    (hw : ∀ p ∈ ranges, p.1 < USIZE ∧ p.2 < USIZE) (a b : Nat)
    (hmem : (a, b) ∈ ranges) :
    ranges_iter ranges = ranges.flatMap rangeSeq ∧
    (a = b → rangeSeq (a, b) = [a]) ∧
    (rangeSeq (a, b)).length = (if a ≤ b then b - a else a - b) + 1 ∧
    (a < b → List.Chain' (· < ·) (rangeSeq (a, b))) ∧
    (b < a → rangeSeq (a, b) = (List.range' b (a - b + 1)).reverse ∧
      List.Chain' (· > ·) (rangeSeq (a, b))) := by
  refine ⟨ranges_iter_eq_flatMap ranges hw, ?_, ?_, ?_, ?_⟩
  · intro hab
    subst hab
    simp [rangeSeq, List.range'_one]
  · by_cases hab : a ≤ b <;> simp [rangeSeq, hab]
  · intro hab
    simp only [rangeSeq, if_pos (le_of_lt hab)]
    exact chain_lt_range' _ _
  · intro hba
    have hab : ¬(a ≤ b) := by omega
    refine ⟨by simp [rangeSeq, hab], ?_⟩
    simp only [rangeSeq, if_neg hab]
    exact List.chain'_reverse.mpr ((chain_lt_range' _ _).imp (fun x y hxy => hxy))

/-- C1 witness: the list `[(5, 2), (1, 3)]` with its descending range
`(5, 2)`. -/
theorem ranges_iter_segments_witness :
    ((∀ p ∈ [((5 : Nat), (2 : Nat)), (1, 3)], p.1 < USIZE ∧ p.2 < USIZE) ∧
      ((5 : Nat), (2 : Nat)) ∈ [((5 : Nat), (2 : Nat)), (1, 3)]) ∧
    (ranges_iter [(5, 2), (1, 3)] = [(5, 2), (1, 3)].flatMap rangeSeq ∧
      ((5 : Nat) = 2 → rangeSeq (5, 2) = [5]) ∧
      (rangeSeq (5, 2)).length = (if (5 : Nat) ≤ 2 then 2 - 5 else 5 - 2) + 1 ∧
      ((5 : Nat) < 2 → List.Chain' (· < ·) (rangeSeq (5, 2))) ∧
      ((2 : Nat) < 5 → rangeSeq (5, 2) = (List.range' 2 (5 - 2 + 1)).reverse ∧
        List.Chain' (· > ·) (rangeSeq (5, 2)))) :=
  ⟨⟨by decide, by decide⟩,
    ranges_iter_segments [(5, 2), (1, 3)] (by decide) 5 2 (by decide)⟩

/-- C2 counterexample: the single-number token for `N = 2^64` satisfies
`N ≥ 1`, yet the parser rejects it with a positive-overflow error instead of
returning `(N - 1, N - 1)`. -/
theorem parse_range_overflow_cex :
    parse_range "18446744073709551616".toList =
      .error (.invalidPart "18446744073709551616".toList .posOverflow) ∧
    parse_range "18446744073709551616".toList ≠
      .ok (18446744073709551615, 18446744073709551615) :=
  ⟨rfl, by decide⟩

/-- C2 (amended): for every token `"N"` with `1 ≤ N < 2^64`, the parser
returns the zero-based `(N-1, N-1)`; for every token `"A-B"` with `A` and `B`
in `[1, 2^64)` it returns `(A-1, B-1)`, preserving whether `A<B`, `A=B` or
`A>B`; in particular `"2-1"` parses successfully to `(1, 0)`, and a leading
`'+'` on a number is accepted and ignored (`NumToken` admits both forms). -/
theorem parse_range_tokens_ok (s1 s2 : List Char) (A B : Nat)
    (h1 : NumToken s1 A) (h2 : NumToken s2 B)
    (hA1 : 1 ≤ A) (hA2 : A < USIZE) (hB1 : 1 ≤ B) (hB2 : B < USIZE) :
    parse_range s1 = .ok (A - 1, A - 1) ∧
    parse_range (s1 ++ '-' :: s2) = .ok (A - 1, B - 1) ∧
    ((A < B ↔ A - 1 < B - 1) ∧ (A = B ↔ A - 1 = B - 1) ∧ (B < A ↔ B - 1 < A - 1)) ∧
    parse_range ['2', '-', '1'] = .ok (1, 0) := by
  have key : ∀ (s : List Char) (n : Nat), NumToken s n → 1 ≤ n → n < USIZE →
      parseNonZeroUsize s = .ok n ∧ ∀ c ∈ s, c ≠ '-' := by
    intro s n hs hn1 hn2
    obtain ⟨dg, hform, hne, hdig, hval⟩ := hs
    subst hval
    have hok := parseNonZeroUsize_ok dg hne hdig hn1 hn2
    have hnd : ∀ c ∈ dg, c ≠ '-' := fun c hc => (isDigitCh_ne c (hdig c hc)).2
    cases hform with
    | inl h =>
      subst h
      exact ⟨hok.1, hnd⟩
    | inr h =>
      subst h
      refine ⟨hok.2, ?_⟩
      intro c hc
      rcases List.mem_cons.mp hc with hc | hc
      · subst hc; decide
      · exact hnd c hc
  obtain ⟨hp1, hnd1⟩ := key s1 A h1 hA1 hA2
  obtain ⟨hp2, hnd2⟩ := key s2 B h2 hB1 hB2
  refine ⟨?_, ?_, ⟨by omega, by omega, by omega⟩, rfl⟩
  · simp [parse_range, splitChar_no_sep '-' s1 hnd1, hp1, collectExcept]
  · simp [parse_range, splitChar_append '-' s1 s2 hnd1, splitChar_no_sep '-' s2 hnd2,
      hp1, hp2, collectExcept]

/-- C2 witness: tokens `"+4"` and `"2"`. -/
theorem parse_range_tokens_ok_witness :
    (NumToken ['+', '4'] 4 ∧ NumToken ['2'] 2 ∧
      1 ≤ 4 ∧ 4 < USIZE ∧ 1 ≤ 2 ∧ 2 < USIZE) ∧
    (parse_range ['+', '4'] = .ok (4 - 1, 4 - 1) ∧
      parse_range (['+', '4'] ++ '-' :: ['2']) = .ok (4 - 1, 2 - 1) ∧
      (((4 : Nat) < 2 ↔ 4 - 1 < 2 - 1) ∧ ((4 : Nat) = 2 ↔ 4 - 1 = 2 - 1) ∧
        ((2 : Nat) < 4 ↔ 2 - 1 < 4 - 1)) ∧
      parse_range ['2', '-', '1'] = .ok (1, 0)) := by
  have hn1 : NumToken ['+', '4'] 4 := ⟨['4'], Or.inr rfl, by decide, by decide, rfl⟩
  have hn2 : NumToken ['2'] 2 := ⟨['2'], Or.inl rfl, by decide, by decide, rfl⟩
  exact ⟨⟨hn1, hn2, by omega, by decide, by omega, by decide⟩,
    parse_range_tokens_ok ['+', '4'] ['2'] 4 2 hn1 hn2 (by omega) (by decide)
      (by omega) (by decide)⟩

/-- C3: in all three extractors the output consists of exactly the in-bounds
positions yielded by the iterator, kept in traversal order and mapped to the
addressed element; every out-of-bounds position is silently dropped and no
error is possible (the extractors are total functions). -/
theorem extract_oob_silent_skip (xs bs : List Nat) (record : List (List Nat))
    (ranges : List (Nat × Nat)) :
    extract_chars xs ranges =
      ((ranges_iter ranges).filter (fun i => i < xs.length)).map (fun i => xs.getD i 0) ∧
    collectedBytes bs ranges =
      ((ranges_iter ranges).filter (fun i => i < bs.length)).map (fun i => bs.getD i 0) ∧
    extract_fields_internal record ranges =
      ((ranges_iter ranges).filter (fun i => i < record.length)).map
        (fun i => record.getD i []) :=
  ⟨filterMap_lookup_eq xs 0 _, filterMap_lookup_eq bs 0 _, filterMap_lookup_eq record [] _⟩

/-- C4 (code bug): on the line `" a,b"` with delimiter `','` and range list
`[(0, 0)]`, `extract_fields` returns `"a"` and not `" a"`: the final
`str::trim` also strips the selected field's own leading/trailing whitespace,
not only the record terminator appended by the serializer. -/
theorem extract_fields_trim_bug :
    extract_fields [32, 97, 44, 98] 44 [(0, 0)] = some (.ok [97]) ∧
    extract_fields [32, 97, 44, 98] 44 [(0, 0)] ≠ some (.ok [32, 97]) :=
  ⟨rfl, by decide⟩

/-- C5 (code bug): in Field mode the empty line makes the csv reader yield no
record, so `.expect("No fields found")` panics (modelled by `none`): the
engine neither returns a result nor an error there. -/
theorem extract_fields_empty_line_aborts (delim : Nat) (ranges : List (Nat × Nat)) :
    extract_fields [] delim ranges = none := rfl

/-- C6: the range list parser keeps the tokens' order with no deduplication
and no sorting (`"3,1,3"` gives exactly `[(2,2),(0,0),(2,2)]`; a success is
exactly the per-token results in token order), and the first failing token
short-circuits the parse with its error surfaced verbatim, so no partial
list is produced. -/
theorem parse_ranges_order_short_circuit :
    parse_ranges "3,1,3".toList = .ok [(2, 2), (0, 0), (2, 2)] ∧
    (∀ (s : List Char) (l : List (Nat × Nat)), parse_ranges s = .ok l →
      l.length = (splitChar ',' s).length ∧
      ∀ (i : Nat) (t : List Char) (r : Nat × Nat),
        (splitChar ',' s)[i]? = some t → l[i]? = some r →
        parse_range (rustTrim t) = .ok r) ∧
    (∀ (s : List Char) (j : Nat) (t : List Char) (e : RangeError),
      (splitChar ',' s)[j]? = some t →
      (∀ i u, i < j → (splitChar ',' s)[i]? = some u →
        ∃ r, parse_range (rustTrim u) = .ok r) →
      parse_range (rustTrim t) = .error e →
      parse_ranges s = .error e) := by
  refine ⟨rfl, ?_, ?_⟩
  · intro s l h
    have hmap := collectExcept_ok_map h
    constructor
    · have h2 := congrArg List.length hmap
      simp only [List.length_map] at h2
      omega
    · intro i t r hti hri
      have hx1 : ((splitChar ',' s).map (fun x => parse_range (rustTrim x)))[i]? =
          some (parse_range (rustTrim t)) := by
        rw [List.getElem?_map, hti]
        rfl
      have hx2 : ((splitChar ',' s).map (fun x => parse_range (rustTrim x)))[i]? =
          some (Except.ok r) := by
        rw [hmap, List.getElem?_map, hri]
        rfl
      exact Option.some.inj (hx1.symm.trans hx2)
  · intro s j t e hj hok hte
    show collectExcept ((splitChar ',' s).map (fun x => parse_range (rustTrim x))) = .error e
    apply collectExcept_first_error j
    · rw [List.getElem?_map, hj]
      simp [hte]
    · intro i hi
      have hjlt : j < (splitChar ',' s).length := by
        by_contra hc
        rw [List.getElem?_eq_none (by omega)] at hj
        cases hj
      have hilt : i < (splitChar ',' s).length := by omega
      have hu := List.getElem?_eq_getElem hilt
      obtain ⟨r, hr⟩ := hok i _ hi hu
      refine ⟨r, ?_⟩
      rw [List.getElem?_map, hu]
      simp [hr]

/-- C6 witness: the spec `"1,x,2"` fails with the error of its second token
`"x"`, even though the first token parses. -/
theorem parse_ranges_order_short_circuit_witness :
    parse_ranges "1,x,2".toList = .error (.invalidPart ['x'] .invalidDigit) := by
  apply parse_ranges_order_short_circuit.2.2 "1,x,2".toList 1 ['x']
  · decide
  · intro i u hi hu
    have hi0 : i = 0 := by omega
    subst hi0
    have hu2 : u = ['1'] := by
      have hs : (splitChar ',' "1,x,2".toList)[0]? = some ['1'] := by decide
      rw [hs] at hu
      injection hu with hu
      exact hu.symm
    subst hu2
    exact ⟨(0, 0), rfl⟩
  · decide

/-- C7 counterexample: `"1-1-a"` splits into three parts, but the parser
rejects it with the invalid-digit error of its third part, not with the
malformed-range (part count) error the claim requires for every such token. -/
theorem parse_range_partcount_cex :
    (splitChar '-' "1-1-a".toList).length = 3 ∧
    parse_range "1-1-a".toList = .error (.invalidPart "1-1-a".toList .invalidDigit) ∧
    parse_range "1-1-a".toList ≠ .error (.malformed "1-1-a".toList 3) :=
  ⟨rfl, rfl, by decide⟩

/-- C7 (amended): within a token, parts are validated left to right and the
first failing part determines the error — a zero part gives the zero-index
error and a non-numeric part the invalid-digit error, the error naming the
whole token; the part-count check runs only when every part parses, and then
any count other than one or two gives the malformed-range error naming the
token and the count. -/
theorem parse_range_error_order (t : List Char) :
    (∀ (j : Nat) (x : List Char) (e : IntParseError),
      (splitChar '-' t)[j]? = some x →
      (∀ i y, i < j → (splitChar '-' t)[i]? = some y →
        ∃ a, parseNonZeroUsize y = .ok a) →
      parseNonZeroUsize x = .error e →
      parse_range t = .error (.invalidPart t e)) ∧
    ((∀ y ∈ splitChar '-' t, ∃ a, parseNonZeroUsize y = .ok a) →
      (splitChar '-' t).length ≠ 1 → (splitChar '-' t).length ≠ 2 →
      parse_range t = .error (.malformed t (splitChar '-' t).length)) := by
  constructor
  · intro j x e hj hok hxe
    have hcoll : collectExcept ((splitChar '-' t).map parseNonZeroUsize) = .error e := by
      apply collectExcept_first_error j
      · rw [List.getElem?_map, hj]
        simp [hxe]
      · intro i hi
        have hjlt : j < (splitChar '-' t).length := by
          by_contra hc
          rw [List.getElem?_eq_none (by omega)] at hj
          cases hj
        have hilt : i < (splitChar '-' t).length := by omega
        have hu := List.getElem?_eq_getElem hilt
        obtain ⟨a, ha⟩ := hok i _ hi hu
        refine ⟨a, ?_⟩
        rw [List.getElem?_map, hu]
        simp [ha]
    simp [parse_range, hcoll]
  · intro hall h1 h2
    obtain ⟨l, hl, hlen⟩ :=
      collectExcept_all_ok ((splitChar '-' t).map parseNonZeroUsize) (by
        intro x hx
        obtain ⟨y, hy, hfy⟩ := List.mem_map.mp hx
        obtain ⟨a, ha⟩ := hall y hy
        exact ⟨a, by rw [← hfy, ha]⟩)
    rw [List.length_map] at hlen
    rcases l with _ | ⟨p, l2⟩
    · simp only [parse_range, hl]
      rw [← hlen]
    rcases l2 with _ | ⟨q, l3⟩
    · exfalso
      simp only [List.length_singleton] at hlen
      omega
    rcases l3 with _ | ⟨r2, l4⟩
    · exfalso
      simp only [List.length_cons, List.length_nil] at hlen
      omega
    · simp only [parse_range, hl]
      rw [← hlen]

/-- C7 witness: the token `"a"` fails with the invalid-digit error. -/
theorem parse_range_error_order_witness :
    parse_range ['a'] = .error (.invalidPart ['a'] .invalidDigit) :=
  (parse_range_error_order ['a']).1 0 ['a'] .invalidDigit (by decide)
    (fun i y hi _ => absurd hi (by omega)) (by decide)

/-- C8 counterexample: the empty specification fails with the generic
empty-token parse error ("Invalid range '' - cannot parse integer from empty
string"); the same error also arises for the nonempty spec `"1,"`, so no
distinct error is reserved for the empty specification. -/
theorem parse_ranges_empty_error_not_distinct :
    parse_ranges [] = .error (.invalidPart [] .empty) ∧
    parse_ranges "1,".toList = .error (.invalidPart [] .empty) :=
  ⟨rfl, rfl⟩

/-- C8 (amended): parsing the empty specification string always fails, with
the invalid-range error for the empty token produced by splitting `""` (not
with a distinct reserved error kind). -/
theorem parse_ranges_empty_fails :
    parse_ranges [] = .error (.invalidPart [] .empty) := rfl

/-- C9: `extract_bytes` decodes the collected byte buffer lossily: whenever
the buffer is not valid UTF-8 the output contains the replacement character
U+FFFD instead of any failure; in particular extracting only the first byte
of `"ábc"` (bytes `C3 A1 62 63`) yields a string containing U+FFFD. -/
theorem extract_bytes_lossy_decode (bs : List Nat) (ranges : List (Nat × Nat)) :
    extract_bytes bs ranges = utf8DecodeLossy (collectedBytes bs ranges) ∧
    (isValidUtf8 (collectedBytes bs ranges) = false →
      (0xFFFD : Nat) ∈ extract_bytes bs ranges) ∧
    (0xFFFD : Nat) ∈ extract_bytes [0xC3, 0xA1, 0x62, 0x63] [(0, 0)] := by
  refine ⟨rfl, ?_, by decide⟩
  intro h
  exact utf8Go_invalid_mem _ _ (Nat.le_refl _) h

/-- C9 witness: the collected buffer `[0xC3]` is invalid UTF-8 and the output
contains U+FFFD. -/
theorem extract_bytes_lossy_decode_witness :
    isValidUtf8 (collectedBytes [0xC3, 0xA1, 0x62, 0x63] [(0, 0)]) = false ∧
    (0xFFFD : Nat) ∈ extract_bytes [0xC3, 0xA1, 0x62, 0x63] [(0, 0)] :=
  ⟨by decide, (extract_bytes_lossy_decode [0xC3, 0xA1, 0x62, 0x63] [(0, 0)]).2.1 (by decide)⟩

/-- C10: the byte used by `extract_fields` for splitting and re-joining is
the delimiter's code point reduced modulo 256 (`delimeter as u8`): the result
is unchanged when the delimiter is replaced by its low byte; concretely,
delimiter 300 (= `','` + 256) splits `"a,b"` at the comma, while delimiter
`'á'` (225) fails to split `"aáb"` (UTF-8 `61 C3 A1 62`) at the character the
caller supplied. -/
theorem extract_fields_delim_low_byte (xs : List Nat) (delim : Nat)
    (ranges : List (Nat × Nat)) :
    extract_fields xs delim ranges = extract_fields xs (delim % 256) ranges ∧
    extract_fields [97, 44, 98] 300 [(1, 1)] = some (.ok [98]) ∧
    extract_fields [97, 195, 161, 98] 225 [(0, 0)] = some (.ok [97, 225, 98]) := by
  refine ⟨?_, rfl, rfl⟩
  have h : delim % 256 % 256 = delim % 256 := by omega
  simp only [extract_fields, h]
